import Mathlib

/-!
Shallow embedding of the edvinBot repository (fetch_raid_participants.py and
main.py): signup records, the signup-sequence sort, status categorization,
filtering, category listing, filename sanitization and URL validation,
together with theorems checking the specification's claims.
-/

namespace EdvinBot

/-- One raw signup record from the `signUps` JSON array.  Every field is
optional, mirroring `entry.get(...)` access in the Python sources. -/
structure Signup where
  name : Option String
  className : Option String
  position : Option Int
  entryTime : Option Int
deriving DecidableEq

/-- Embedding of Python `str.lower()` applied to a status string:
map `Char.toLower` over the characters. -/
def lowerStr (s : String) : String := String.mk (s.data.map Char.toLower)

/-- `entry.get("className", "").lower()` (fetch_raid_participants.py line 53/67). -/
def statusOf (e : Signup) : String := lowerStr (e.className.getD "")

/-- `entry.get("name", "")` (fetch_raid_participants.py lines 54/70). -/
def nameOf (e : Signup) : String := e.name.getD ""

/-- The sort key `(e.get("position", 10**9), e.get("entryTime", 0))`
(fetch_raid_participants.py line 63, main.py line 74). -/
def sortKey (e : Signup) : Int × Int := (e.position.getD 1000000000, e.entryTime.getD 0)

/-- Python tuple comparison on the sort keys: lexicographic. -/
def keyLe (a b : Signup) : Bool :=
  decide ((sortKey a).1 < (sortKey b).1) ||
    (decide ((sortKey a).1 = (sortKey b).1) && decide ((sortKey a).2 ≤ (sortKey b).2))

/-- `sorted(signups, key=lambda e: (e.get("position", 10**9), e.get("entryTime", 0)))`:
Python's `sorted` is a stable merge sort by the key. -/
def sortSignups (s : List Signup) : List Signup := s.mergeSort keyLe

/-- The filter test of `print_rows_in_signup_order`:
`if wanted and status not in wanted: continue` keeps an entry iff `wanted`
is falsy (None or empty) or the lower-cased status is a member. -/
def keepB (wanted : Option (List String)) (e : Signup) : Bool :=
  match wanted with
  | none => true
  | some ws => ws.isEmpty || ws.contains (statusOf e)

/-- One output row `f"{name}\t{status}"`, kept as the pair (name, status). -/
def renderRow (e : Signup) : String × String := (nameOf e, statusOf e)

/-- The rows a list of signups is rendered to, in order. -/
def rowsOf (l : List Signup) : List (String × String) := l.map renderRow

/-- `print_rows_in_signup_order` without shuffling: sort in signup sequence,
then drop rows failing the status filter, rendering each survivor. -/
def signupRows (signups : List Signup) (wanted : Option (List String)) :
    List (String × String) :=
  ((sortSignups signups).filter (keepB wanted)).map renderRow

/-- `format_participants` from main.py: same sort, but the rendered status is
the raw `className` with default `"unknown"` (no lower-casing), and the name
default is `"Unknown"`; rows are joined with newlines. -/
def format_participants (signups : List Signup) : String :=
  String.intercalate "\n"
    ((sortSignups signups).map
      (fun e => e.name.getD "Unknown" ++ "\t" ++ e.className.getD "unknown"))

/-- `cats.setdefault(status, []).append(name)`: append to the (unique) bucket
with this key, or create a fresh bucket at the end of the insertion-ordered
dict. -/
def insertCat : List (String × List String) → String → String → List (String × List String)
  | [], st, n => [(st, [n])]
  | (k, ns) :: rest, st, n =>
    if k = st then (k, ns ++ [n]) :: rest
    else (k, ns) :: insertCat rest st n

/-- `collect_categories` (fetch_raid_participants.py lines 50-55). -/
def collect_categories (signups : List Signup) : List (String × List String) :=
  signups.foldl (fun cats e => insertCat cats (statusOf e) (nameOf e)) []

/-- The names held by the bucket for key `k` (empty when absent). -/
def bucketOf : List (String × List String) → String → List String
  | [], _ => []
  | (q, ns) :: rest, k => if q = k then ns else bucketOf rest k

/-- Flatten a category index into (status, name) pairs, bucket by bucket. -/
def flattenCats (cats : List (String × List String)) : List (String × String) :=
  cats.flatMap (fun p => p.2.map (fun n => (p.1, n)))

/-- `print_categories` (fetch_raid_participants.py lines 57-59):
`for status in sorted(cats): print(status)` — the dict keys, sorted. -/
def print_categories (cats : List (String × List String)) : List String :=
  (cats.map Prod.fst).mergeSort (fun a b => decide (a ≤ b))

/-- The `--categories` mode end to end. -/
def categoriesOutput (signups : List Signup) : List String :=
  print_categories (collect_categories signups)

/-- The character class kept verbatim by `sanitize_filename`:
`c.isalnum() or c in (' ', '-', '_')`. -/
def isKeptChar (c : Char) : Bool := c.isAlphanum || c = ' ' || c = '-' || c = '_'

/-- Python `str.strip()`: drop leading and trailing whitespace. -/
def stripChars (l : List Char) : List Char :=
  ((l.dropWhile Char.isWhitespace).reverse.dropWhile Char.isWhitespace).reverse

/-- The `safe_title` computed by `sanitize_filename` (main.py lines 85-89):
replace unsafe characters by '_', strip, turn spaces into '_',
truncate to 50 characters. -/
def safeTitleChars (title : List Char) : List Char :=
  let s1 := title.map (fun c => if isKeptChar c then c else '_')
  let s2 := stripChars s1
  let s3 := s2.map (fun c => if c = ' ' then '_' else c)
  if s3.length > 50 then s3.take 50 else s3

/-- `sanitize_filename` (main.py lines 82-90). -/
def sanitize_filename (title date : String) : String :=
  let safe := safeTitleChars title.data
  if safe.isEmpty then "raid_" ++ date ++ ".txt"
  else String.mk safe ++ "_" ++ date ++ ".txt"

/-- Does `needle` occur at the very front of `hay`? -/
def headMatch : List Char → List Char → Bool
  | [], _ => true
  | _ :: _, [] => false
  | a :: as, b :: bs => (a == b) && headMatch as bs

/-- Contiguous-substring test, embedding Python's `in` on strings. -/
def containsSeq (needle : List Char) : List Char → Bool
  | [] => needle.isEmpty
  | b :: bs => headMatch needle (b :: bs) || containsSeq needle bs

/-- `RAID_HELPER_DOMAIN` (main.py line 60). -/
def RAID_HELPER_DOMAIN : String := "raid-helper.dev"

/-- The URL check of `raid_list` (main.py line 124):
`RAID_HELPER_DOMAIN not in url.lower()` rejects; this is the acceptance test. -/
def url_is_valid (url : String) : Bool :=
  containsSeq RAID_HELPER_DOMAIN.data (lowerStr url).data

/-- A record with no `position` field. -/
def recNoPos : Signup := ⟨some "NoPos", some "tank", none, some 0⟩

/-- A record whose `position` equals the fallback sentinel `10^9`. -/
def recSentinelPos : Signup := ⟨some "Sentinel", some "tank", some 1000000000, some 0⟩

/-- The spec's worked example: Zed the Tank at position 2. -/
def zedTank : Signup := ⟨some "Zed", some "Tank", some 2, none⟩

/-- The spec's worked example: Amy the Healer at position 1. -/
def amyHealer : Signup := ⟨some "Amy", some "Healer", some 1, none⟩

/-! ## Properties of the sort key -/

theorem keyLe_iff (a b : Signup) :
    keyLe a b = true ↔
      ((sortKey a).1 < (sortKey b).1 ∨
        ((sortKey a).1 = (sortKey b).1 ∧ (sortKey a).2 ≤ (sortKey b).2)) := by
  simp [keyLe]

theorem keyLe_trans (a b c : Signup) (hab : keyLe a b) (hbc : keyLe b c) : keyLe a c := by
  rw [keyLe_iff] at hab hbc ⊢
  omega

theorem keyLe_total (a b : Signup) : keyLe a b || keyLe b a := by
  rw [Bool.or_eq_true, keyLe_iff, keyLe_iff]
  omega

theorem sortSignups_perm (s : List Signup) : (sortSignups s).Perm s :=
  List.mergeSort_perm s keyLe

theorem sortSignups_pairwise (s : List Signup) :
    (sortSignups s).Pairwise (fun a b => keyLe a b = true) :=
  List.sorted_mergeSort keyLe_trans keyLe_total s

/-- C1: for every input list, the signup-sequence ordering is a permutation of
the input sorted by the key pair (position ascending, entryTime ascending),
with a missing `position` taking the sentinel `10^9` and a missing
`entryTime` taking `0`; filtering only drops rows from the sorted list and
the surviving rows form a sublist (same relative order) of the unfiltered
rows. -/
theorem signup_sequence_sorts_by_key (s : List Signup) (w : Option (List String)) :
    (sortSignups s).Perm s ∧
    (sortSignups s).Pairwise (fun a b =>
      (sortKey a).1 < (sortKey b).1 ∨
        ((sortKey a).1 = (sortKey b).1 ∧ (sortKey a).2 ≤ (sortKey b).2)) ∧
    (∀ e : Signup, e.position = none → (sortKey e).1 = 1000000000) ∧
    (∀ e : Signup, e.entryTime = none → (sortKey e).2 = 0) ∧
    signupRows s w = ((sortSignups s).filter (keepB w)).map renderRow ∧
    (signupRows s w).Sublist (rowsOf (sortSignups s)) := by
  refine ⟨List.mergeSort_perm s keyLe, ?_, ?_, ?_, rfl, ?_⟩
  · exact (List.sorted_mergeSort keyLe_trans keyLe_total s).imp
      (fun h => (keyLe_iff _ _).1 h)
  · intro e h
    simp [sortKey, h]
  · intro e h
    simp [sortKey, h]
  · exact List.Sublist.map renderRow (List.filter_sublist _)

/-- C2 counterexample: with input `[recNoPos, recSentinelPos]`, where
`recNoPos` has no position and `recSentinelPos` has position `10^9` and the
same entryTime, the sorted output keeps the record WITHOUT a position first,
so the record with a position does not precede it. -/
theorem missing_position_counterexample :
    recNoPos.position = none ∧
    recSentinelPos.position = some 1000000000 ∧
    sortSignups [recNoPos, recSentinelPos] = [recNoPos, recSentinelPos] := by
  refine ⟨rfl, rfl, List.mergeSort_of_sorted ?_⟩
  decide

/-- C2 amended: in the sorted output, whenever a record with no `position`
precedes a record carrying position `p`, then `p ≥ 10^9`; equivalently every
record with position below the sentinel `10^9` sorts before every record
with no `position`, regardless of entryTime. -/
theorem positions_below_sentinel_precede_missing (s : List Signup) :
    (sortSignups s).Pairwise (fun a b =>
      a.position = none → ∀ p : Int, b.position = some p → 1000000000 ≤ p) := by
  refine (List.sorted_mergeSort keyLe_trans keyLe_total s).imp ?_
  intro a b hab hnone p hp
  rw [keyLe_iff] at hab
  simp [sortKey, hnone, hp] at hab
  omega

/-! ## Category index lemmas -/

theorem bucketOf_insertCat (cats : List (String × List String)) (st n k : String) :
    bucketOf (insertCat cats st n) k =
      bucketOf cats k ++ (if st = k then [n] else []) := by
  induction cats with
  | nil =>
    by_cases h : st = k <;> simp [insertCat, bucketOf, h]
  | cons p rest ih =>
    obtain ⟨q, ns⟩ := p
    by_cases hq : q = st
    · subst hq
      by_cases hk : q = k
      · simp [insertCat, bucketOf, hk]
      · simp [insertCat, bucketOf, hk]
    · by_cases hk : q = k
      · subst hk
        have hst : ¬ st = q := fun h => hq h.symm
        simp [insertCat, bucketOf, hq, hst]
      · simp [insertCat, bucketOf, hq, hk, ih]

theorem bucketOf_foldl (rest : List Signup) :
    ∀ (acc : List (String × List String)) (k : String),
      bucketOf (rest.foldl (fun cats e => insertCat cats (statusOf e) (nameOf e)) acc) k =
        bucketOf acc k ++ (rest.filter (fun e => statusOf e = k)).map nameOf := by
  induction rest with
  | nil =>
    intro acc k
    simp
  | cons e rest ih =>
    intro acc k
    simp only [List.foldl_cons]
    rw [ih, bucketOf_insertCat]
    by_cases h : statusOf e = k
    · simp [List.filter_cons, h, List.append_assoc]
    · simp [List.filter_cons, h]

theorem flattenCats_insertCat (cats : List (String × List String)) (st n : String) :
    (flattenCats (insertCat cats st n)).Perm (flattenCats cats ++ [(st, n)]) := by
  induction cats with
  | nil =>
    simp [insertCat, flattenCats]
  | cons p rest ih =>
    obtain ⟨q, ns⟩ := p
    by_cases hq : q = st
    · subst hq
      rw [insertCat, if_pos rfl]
      simp only [flattenCats, List.flatMap_cons, List.map_append,
        List.map_cons, List.map_nil]
      rw [List.append_assoc, List.append_assoc]
      exact List.Perm.append_left _ List.perm_append_comm
    · rw [insertCat, if_neg hq]
      simp only [flattenCats, List.flatMap_cons]
      rw [List.append_assoc]
      exact List.Perm.append_left _ ih

theorem flattenCats_foldl (rest : List Signup) :
    ∀ acc : List (String × List String),
      (flattenCats (rest.foldl (fun cats e => insertCat cats (statusOf e) (nameOf e)) acc)).Perm
        (flattenCats acc ++ rest.map (fun e => (statusOf e, nameOf e))) := by
  induction rest with
  | nil =>
    intro acc
    simp
  | cons e rest ih =>
    intro acc
    simp only [List.foldl_cons, List.map_cons]
    refine (ih _).trans ?_
    refine ((flattenCats_insertCat acc (statusOf e) (nameOf e)).append_right _).trans ?_
    rw [List.append_assoc]
    exact List.Perm.refl _

theorem keys_insertCat (cats : List (String × List String)) (st n : String) :
    (insertCat cats st n).map Prod.fst =
      if st ∈ cats.map Prod.fst then cats.map Prod.fst
      else cats.map Prod.fst ++ [st] := by
  induction cats with
  | nil =>
    simp [insertCat]
  | cons p rest ih =>
    obtain ⟨q, ns⟩ := p
    by_cases hq : q = st
    · subst hq
      simp [insertCat]
    · have hq' : ¬ st = q := fun h => hq h.symm
      simp only [insertCat, if_neg hq, List.map_cons, ih, List.mem_cons, hq', false_or]
      by_cases hm : st ∈ rest.map Prod.fst <;> simp [hm]

theorem keys_nodup_insertCat (cats : List (String × List String)) (st n : String)
    (h : (cats.map Prod.fst).Nodup) :
    ((insertCat cats st n).map Prod.fst).Nodup := by
  rw [keys_insertCat]
  by_cases hm : st ∈ cats.map Prod.fst
  · simpa [hm] using h
  · simp [hm, List.nodup_append, h]

theorem keys_nodup_foldl (rest : List Signup) :
    ∀ acc : List (String × List String), ((acc.map Prod.fst).Nodup) →
      (((rest.foldl (fun cats e => insertCat cats (statusOf e) (nameOf e)) acc).map
        Prod.fst).Nodup) := by
  induction rest with
  | nil =>
    intro acc h
    simpa using h
  | cons e rest ih =>
    intro acc h
    exact ih _ (keys_nodup_insertCat _ _ _ h)

theorem mem_keys_insertCat (cats : List (String × List String)) (st n k : String) :
    k ∈ (insertCat cats st n).map Prod.fst ↔ k ∈ cats.map Prod.fst ∨ k = st := by
  rw [keys_insertCat]
  by_cases hm : st ∈ cats.map Prod.fst
  · simp only [if_pos hm]
    exact ⟨Or.inl, fun h => h.elim id (fun e => e ▸ hm)⟩
  · simp [hm]

theorem mem_keys_foldl (rest : List Signup) :
    ∀ (acc : List (String × List String)) (k : String),
      k ∈ ((rest.foldl (fun cats e => insertCat cats (statusOf e) (nameOf e)) acc).map
        Prod.fst) ↔ k ∈ acc.map Prod.fst ∨ ∃ e ∈ rest, statusOf e = k := by
  induction rest with
  | nil =>
    intro acc k
    simp
  | cons e rest ih =>
    intro acc k
    simp only [List.foldl_cons]
    rw [ih, mem_keys_insertCat]
    constructor
    · rintro (⟨h | h⟩ | ⟨e', he', h⟩)
      · exact Or.inl h
      · exact Or.inr ⟨e, List.mem_cons_self _ _, h.symm⟩
      · exact Or.inr ⟨e', List.mem_cons_of_mem _ he', h⟩
    · rintro (h | ⟨e', he', h⟩)
      · exact Or.inl (Or.inl h)
      · rcases List.mem_cons.mp he' with rfl | he'
        · exact Or.inl (Or.inr h.symm)
        · exact Or.inr ⟨e', he', h⟩

/-- C3: categorization is a partition: flattening the buckets is a
permutation of the input's (lower-cased status, name) pairs; bucket keys are
unique (every record lands in exactly one bucket); a missing `className`
yields the empty-string status; and each bucket lists, in input order, the
names of exactly the records with that lower-cased status. -/
theorem categorize_partition (s : List Signup) :
    (flattenCats (collect_categories s)).Perm
      (s.map (fun e => (statusOf e, nameOf e))) ∧
    ((collect_categories s).map Prod.fst).Nodup ∧
    (∀ e : Signup, e.className = none → statusOf e = "") ∧
    (∀ k, bucketOf (collect_categories s) k =
      (s.filter (fun e => statusOf e = k)).map nameOf) := by
  refine ⟨?_, ?_, ?_, ?_⟩
  · simpa [flattenCats] using flattenCats_foldl s []
  · exact keys_nodup_foldl s [] (by simp)
  · intro e h
    simp only [statusOf, h]
    rfl
  · intro k
    simpa [bucketOf] using bucketOf_foldl s [] k

/-- C8: categories-only mode outputs exactly the distinct lower-cased status
keys occurring in the input, sorted, with no duplicates; empty input gives
empty output. -/
theorem categories_only_spec (s : List Signup) :
    (categoriesOutput s).Pairwise (fun a b : String => a ≤ b) ∧
    (categoriesOutput s).Nodup ∧
    (∀ k, k ∈ categoriesOutput s ↔ k ∈ s.map statusOf) ∧
    categoriesOutput [] = ([] : List String) := by
  refine ⟨?_, ?_, ?_, ?_⟩
  · have h := List.sorted_mergeSort
      (fun (a b c : String) (hab : decide (a ≤ b) = true) (hbc : decide (b ≤ c) = true) =>
        decide_eq_true (le_trans (of_decide_eq_true hab) (of_decide_eq_true hbc)))
      (fun a b : String => by simpa using le_total a b)
      ((collect_categories s).map Prod.fst)
    exact h.imp (fun hab => of_decide_eq_true hab)
  · exact ((List.mergeSort_perm _ _).nodup_iff).mpr (keys_nodup_foldl s [] (by simp))
  · intro k
    rw [categoriesOutput, print_categories, List.mem_mergeSort, collect_categories,
      mem_keys_foldl]
    simp [eq_comm]
  · simp [categoriesOutput, print_categories, collect_categories]

/-! ## Character-level lemmas about lower-casing -/

theorem uint32_le_iff (a b : UInt32) : a ≤ b ↔ a.toNat ≤ b.toNat := Iff.rfl

theorem isUpper_eq_true_iff (c : Char) :
    c.isUpper = true ↔ 65 ≤ c.toNat ∧ c.toNat ≤ 90 := by
  simp only [Char.isUpper, Bool.and_eq_true, decide_eq_true_eq, ge_iff_le, uint32_le_iff]
  exact Iff.rfl

theorem toLower_toNat_of_upper (c : Char) (h : 65 ≤ c.toNat ∧ c.toNat ≤ 90) :
    (Char.toLower c).toNat = c.toNat + 32 := by
  simp only [Char.toLower]
  rw [if_pos h]
  rw [Char.ofNat, dif_pos (Or.inl (by omega : c.toNat + 32 < 0xd800))]
  rfl

theorem toLower_eq_of_not_upper (c : Char) (h : ¬ (65 ≤ c.toNat ∧ c.toNat ≤ 90)) :
    Char.toLower c = c := by
  simp only [Char.toLower]
  rw [if_neg h]

theorem toLower_not_upper (c : Char) : (Char.toLower c).isUpper = false := by
  by_cases h : 65 ≤ c.toNat ∧ c.toNat ≤ 90
  · have hval := toLower_toNat_of_upper c h
    rw [Bool.eq_false_iff]
    intro hu
    rw [isUpper_eq_true_iff, hval] at hu
    omega
  · rw [toLower_eq_of_not_upper c h, Bool.eq_false_iff]
    intro hu
    exact h ((isUpper_eq_true_iff c).1 hu)

/-- C4 counterexample: main.py's `format_participants` renders the raw
`className` without lower-casing, so the record `Zed/Tank` is emitted with
the upper-case label `Tank`, not the lower-cased `tank`. -/
theorem format_participants_keeps_case :
    format_participants [zedTank] = "Zed\tTank" ∧
    lowerStr (zedTank.className.getD "") = "tank" ∧
    ("Zed\tTank" : String) ≠ "Zed\ttank" := by
  refine ⟨?_, by decide, by decide⟩
  simp only [format_participants, sortSignups, List.mergeSort_singleton]
  rfl

/-- C4 amended: in the CLI tool (`print_rows_in_signup_order` and the
category listing of `collect_categories`) the status label is the lower-cased
`className` (default empty), it contains no upper-case letter, and the
filter decision depends only on the lower-cased status (case-insensitive);
main.py's `format_participants` instead emits the `className` verbatim. -/
theorem cli_status_labels_lowercased (s : List Signup) (w : Option (List String)) :
    (∀ r ∈ signupRows s w, ∃ e ∈ s, r = (nameOf e, lowerStr (e.className.getD ""))) ∧
    (∀ r ∈ signupRows s w, ∀ c ∈ r.2.data, c.isUpper = false) ∧
    (∀ k ∈ (collect_categories s).map Prod.fst,
      ∃ e ∈ s, k = lowerStr (e.className.getD "")) ∧
    (∀ a b : Signup,
      lowerStr (a.className.getD "") = lowerStr (b.className.getD "") →
        keepB w a = keepB w b) := by
  refine ⟨?_, ?_, ?_, ?_⟩
  · intro r hr
    rcases List.mem_map.1 hr with ⟨e, he, rfl⟩
    have hes : e ∈ s := (List.mem_mergeSort).1 (List.mem_of_mem_filter he)
    exact ⟨e, hes, rfl⟩
  · intro r hr c hc
    rcases List.mem_map.1 hr with ⟨e, _, rfl⟩
    have : c ∈ ((e.className.getD "").data.map Char.toLower) := hc
    rcases List.mem_map.1 this with ⟨c₀, _, rfl⟩
    exact toLower_not_upper c₀
  · intro k hk
    rw [collect_categories, mem_keys_foldl] at hk
    rcases hk with h | ⟨e, he, rfl⟩
    · simp at h
    · exact ⟨e, he, rfl⟩
  · intro a b h
    have hst : statusOf a = statusOf b := h
    cases w with
    | none => rfl
    | some ws => simp [keepB, hst]

/-- C5: filtering is total: with no filter (None) or an empty filter list
every sorted record is rendered, and filtering by a single status carried by
no record yields the empty output (no error). -/
theorem filter_total_behavior (s : List Signup) (st : String)
    (h : ∀ e ∈ s, statusOf e ≠ st) :
    signupRows s none = rowsOf (sortSignups s) ∧
    signupRows s (some []) = rowsOf (sortSignups s) ∧
    signupRows s (some [st]) = [] := by
  refine ⟨?_, ?_, ?_⟩
  · have h1 : (sortSignups s).filter (keepB none) = sortSignups s :=
      List.filter_eq_self.mpr (fun a _ => rfl)
    rw [signupRows, h1]
    rfl
  · have h1 : (sortSignups s).filter (keepB (some [])) = sortSignups s :=
      List.filter_eq_self.mpr (fun a _ => rfl)
    rw [signupRows, h1]
    rfl
  · rw [signupRows]
    have hnil : (sortSignups s).filter (keepB (some [st])) = [] := by
      rw [List.filter_eq_nil_iff]
      intro e he
      have hes : e ∈ s := (List.mem_mergeSort).1 he
      simpa [keepB] using h e hes
    rw [hnil]
    rfl

/-- C5 witness: the single record `zedTank` (status "tank") with the absent
filter status "healer". -/
theorem filter_total_behavior_witness :
    (∀ e ∈ [zedTank], statusOf e ≠ "healer") ∧
    (signupRows [zedTank] none = rowsOf (sortSignups [zedTank]) ∧
     signupRows [zedTank] (some []) = rowsOf (sortSignups [zedTank]) ∧
     signupRows [zedTank] (some ["healer"]) = []) := by
  have h : ∀ e ∈ [zedTank], statusOf e ≠ "healer" := by decide
  exact ⟨h, filter_total_behavior [zedTank] "healer" h⟩

/-- C6: filtering by the set of all statuses occurring in the data produces
exactly the unfiltered output. -/
theorem filter_by_all_statuses (s : List Signup) :
    signupRows s (some ((s.map statusOf).dedup)) = signupRows s none := by
  rw [signupRows, signupRows]
  have hcong : ∀ e ∈ sortSignups s,
      keepB (some ((s.map statusOf).dedup)) e = keepB none e := by
    intro e he
    have hes : e ∈ s := (List.mem_mergeSort).1 he
    have hmem : statusOf e ∈ (s.map statusOf).dedup :=
      List.mem_dedup.mpr (List.mem_map_of_mem _ hes)
    have hcon : ((s.map statusOf).dedup).contains (statusOf e) = true := by
      rw [List.contains_iff_exists_mem_beq]
      exact ⟨statusOf e, hmem, by simp⟩
    show ((s.map statusOf).dedup.isEmpty || (s.map statusOf).dedup.contains (statusOf e)) = true
    rw [hcon, Bool.or_true]
  rw [List.filter_congr hcong]

/-- C7: for every permutation chosen by the shuffle, the randomized rows
(before filtering) are a permutation of the non-randomized signup-sequence
rows — the same multiset of (name, status) rows. -/
theorem randomized_rows_perm (s shuffled : List Signup)
    (h : shuffled.Perm (sortSignups s)) :
    (rowsOf shuffled).Perm (rowsOf (sortSignups s)) ∧
    (rowsOf shuffled).Perm (rowsOf s) := by
  constructor
  · exact h.map renderRow
  · exact (h.trans (List.mergeSort_perm s keyLe)).map renderRow

/-- C7 witness: input `[amyHealer, zedTank]` with the shuffle that swaps the
two sorted records. -/
theorem randomized_rows_perm_witness :
    ([zedTank, amyHealer] : List Signup).Perm (sortSignups [amyHealer, zedTank]) ∧
    ((rowsOf [zedTank, amyHealer]).Perm (rowsOf (sortSignups [amyHealer, zedTank])) ∧
     (rowsOf [zedTank, amyHealer]).Perm (rowsOf [amyHealer, zedTank])) := by
  have hs : sortSignups [amyHealer, zedTank] = [amyHealer, zedTank] :=
    List.mergeSort_of_sorted (by decide)
  have hperm : ([zedTank, amyHealer] : List Signup).Perm
      (sortSignups [amyHealer, zedTank]) := by
    rw [hs]
    exact List.Perm.swap _ _ _
  exact ⟨hperm, randomized_rows_perm [amyHealer, zedTank] [zedTank, amyHealer] hperm⟩

/-! ## sanitize_filename -/

theorem mem_stripChars {l : List Char} {c : Char} (h : c ∈ stripChars l) : c ∈ l := by
  rw [stripChars, List.mem_reverse] at h
  have h2 := (List.dropWhile_sublist _ (l := (l.dropWhile Char.isWhitespace).reverse)).subset h
  rw [List.mem_reverse] at h2
  exact (List.dropWhile_sublist _ (l := l)).subset h2

theorem keptChar_map (c : Char) : isKeptChar (if isKeptChar c then c else '_') = true := by
  by_cases h : isKeptChar c
  · rwa [if_pos h]
  · rw [if_neg h]
    decide

theorem keptChar_after_space_subst (c : Char) (h : isKeptChar c = true) :
    ((if c = ' ' then '_' else c).isAlphanum
      || (if c = ' ' then '_' else c) = '-'
      || (if c = ' ' then '_' else c) = '_') = true := by
  by_cases hsp : c = ' '
  · simp only [if_pos hsp]
    decide
  · simp only [if_neg hsp]
    simpa [isKeptChar, hsp] using h

theorem safeTitleChars_mem (t : List Char) (c : Char) (hc : c ∈ safeTitleChars t) :
    (c.isAlphanum || c = '-' || c = '_') = true := by
  simp only [safeTitleChars] at hc
  have hc3 : c ∈ (stripChars (t.map fun c => if isKeptChar c then c else '_')).map
      (fun c => if c = ' ' then '_' else c) := by
    by_cases hlen : ((stripChars (t.map fun c => if isKeptChar c then c else '_')).map
        (fun c => if c = ' ' then '_' else c)).length > 50
    · rw [if_pos hlen] at hc
      exact (List.take_sublist _ _).subset hc
    · rwa [if_neg hlen] at hc
  rcases List.mem_map.1 hc3 with ⟨c₂, hc₂, rfl⟩
  have hc₂' := mem_stripChars hc₂
  rcases List.mem_map.1 hc₂' with ⟨c₀, _, rfl⟩
  exact keptChar_after_space_subst _ (keptChar_map c₀)

theorem kept_not_whitespace (c : Char)
    (h : (c.isAlphanum || c = '-' || c = '_') = true) : c.isWhitespace = false := by
  by_cases h1 : c = ' '
  · subst h1; exact absurd h (by decide)
  · by_cases h2 : c = '\t'
    · subst h2; exact absurd h (by decide)
    · by_cases h3 : c = '\r'
      · subst h3; exact absurd h (by decide)
      · by_cases h4 : c = '\n'
        · subst h4; exact absurd h (by decide)
        · simp [Char.isWhitespace, h1, h2, h3, h4]

/-- C9: `sanitize_filename` always returns `<safe>_<date>.txt` (or
`raid_<date>.txt` when the sanitized title is empty), where `<safe>` has at
most 50 characters, contains only alphanumerics, '-' and '_', and contains
no whitespace at all (in particular none leading or trailing). -/
theorem sanitize_filename_spec (t d : String) :
    sanitize_filename t d =
      (if (safeTitleChars t.data).isEmpty then "raid_" ++ d ++ ".txt"
       else String.mk (safeTitleChars t.data) ++ "_" ++ d ++ ".txt") ∧
    (safeTitleChars t.data).length ≤ 50 ∧
    (∀ c ∈ safeTitleChars t.data, (c.isAlphanum || c = '-' || c = '_') = true) ∧
    (∀ c ∈ safeTitleChars t.data, c.isWhitespace = false) := by
  refine ⟨rfl, ?_, safeTitleChars_mem t.data, ?_⟩
  · simp only [safeTitleChars]
    by_cases hlen : ((stripChars (t.data.map fun c => if isKeptChar c then c else '_')).map
        (fun c => if c = ' ' then '_' else c)).length > 50
    · rw [if_pos hlen, List.length_take]
      omega
    · rw [if_neg hlen]
      omega
  · intro c hc
    exact kept_not_whitespace c (safeTitleChars_mem t.data c hc)

/-! ## URL validation -/

theorem headMatch_iff (n : List Char) :
    ∀ h : List Char, headMatch n h = true ↔ ∃ post, h = n ++ post := by
  induction n with
  | nil =>
    intro h
    simp [headMatch]
  | cons a as ih =>
    intro h
    cases h with
    | nil => simp [headMatch]
    | cons b bs =>
      rw [headMatch, Bool.and_eq_true, beq_iff_eq, ih]
      constructor
      · rintro ⟨rfl, post, rfl⟩
        exact ⟨post, rfl⟩
      · rintro ⟨post, hpost⟩
        rw [List.cons_append] at hpost
        rcases List.cons_eq_cons.1 hpost with ⟨rfl, h2⟩
        exact ⟨rfl, post, h2⟩

theorem containsSeq_iff (n : List Char) :
    ∀ h : List Char, containsSeq n h = true ↔ ∃ pre post, h = pre ++ n ++ post := by
  intro h
  induction h with
  | nil =>
    rw [containsSeq]
    cases n with
    | nil => simp
    | cons a as =>
      simp only [List.isEmpty_cons]
      constructor
      · intro hfalse
        exact absurd hfalse (by decide)
      · rintro ⟨pre, post, hp⟩
        exact absurd hp.symm (by simp)
  | cons b bs ih =>
    rw [containsSeq, Bool.or_eq_true, headMatch_iff, ih]
    constructor
    · rintro (⟨post, hp⟩ | ⟨pre, post, rfl⟩)
      · exact ⟨[], post, by simpa using hp⟩
      · exact ⟨b :: pre, post, rfl⟩
    · rintro ⟨pre, post, hp⟩
      cases pre with
      | nil =>
        exact Or.inl ⟨post, by simpa using hp⟩
      | cons p pre' =>
        rw [List.cons_append, List.cons_append] at hp
        rcases List.cons_eq_cons.1 hp with ⟨rfl, h2⟩
        exact Or.inr ⟨pre', post, h2⟩

/-- C10: the bot's URL check accepts exactly the strings whose lower-cased
character sequence contains "raid-helper.dev" as a contiguous substring
anywhere; in particular a URL of a different host whose path contains the
text passes the check. -/
theorem url_validation_substring (url : String) :
    (url_is_valid url = true ↔
      ∃ pre post : List Char,
        (lowerStr url).data = pre ++ RAID_HELPER_DOMAIN.data ++ post) ∧
    url_is_valid "https://evil.example.com/raid-helper.dev/x" = true := by
  exact ⟨containsSeq_iff _ _, by decide⟩

end EdvinBot
